import Mathlib

/-
Verification of the bencode decoder (bencode.go, decode.go) and the
reflection-based coercion engine (unmarshal) against its specification.

The byte stream is modelled as a `List Nat` of byte values; the buffered
reader's cursor is modelled by returning the remaining bytes alongside each
parsed result.  Go's runtime panics (e.g. `make([]byte, n)` with negative
`n`, or `reflect.Value.SetMapIndex` with a non-assignable key) are modelled
as a distinct `panic` outcome, separate from returned errors.
-/

namespace Bencode

/-- Bytes of the input stream and of decoded strings (Go strings are byte
strings; values are byte values 0-255, arithmetic never overflows here). -/
abbrev Bytes := List Nat

/-- ASCII bytes of a Lean string literal (used only for concrete test
inputs, which are all ASCII). -/
def bs (s : String) : Bytes := s.data.map Char.toNat

/-- Generic value tree produced by the structural decoder: the Go `any`
holding `string`, `int64`, `[]any` or `map[string]any`.  A Go map is
modelled as an association list with last-write-wins insertion
(`insertA`); the decoder never produces duplicate keys. -/
inductive Value where
  | str : Bytes → Value
  | int : Int → Value
  | list : List Value → Value
  | dict : List (Bytes × Value) → Value

/-- Go map lookup `m[k]` on the association-list model (first match; the
lists are built by `insertA`, which keeps keys unique). -/
def lookupA {α : Type} : List (Bytes × α) → Bytes → Option α
  | [], _ => none
  | (k, v) :: rest, key => if k = key then some v else lookupA rest key

/-- Go map assignment `m[k] = v`: replace the existing entry for `k`, or
append a new one. -/
def insertA {α : Type} : List (Bytes × α) → Bytes → α → List (Bytes × α)
  | [], k, v => [(k, v)]
  | (k', v') :: rest, k, v =>
    if k' = k then (k, v) :: rest else (k', v') :: insertA rest k v

/-- Byte is an ASCII decimal digit `0`-`9`. -/
def isDigitByte (b : Nat) : Bool := 48 ≤ b && b ≤ 57

/-- Most-significant-first accumulation of decimal digit bytes. -/
def digitsToNat (s : Bytes) : Nat := s.foldl (fun a b => a * 10 + (b - 48)) 0

/-- Model of Go `strconv.ParseInt(string(s), 10, 64)`: an optional single
leading `+` or `-`, then one or more ASCII digits, and the signed value
must lie in the 64-bit signed range `[-2^63, 2^63 - 1]`; `none` covers
both `ErrSyntax` and `ErrRange` (the callers treat all `ParseInt` errors
alike). -/
def goParseInt64 (s : Bytes) : Option Int :=
  match s with
  | [] => none
  | b :: rest =>
    let neg : Bool := b = 45
    let digits : Bytes := if b = 43 || b = 45 then rest else s
    if digits = [] then none
    else if digits.all isDigitByte then
      let n : Nat := digitsToNat digits
      if neg then
        if n ≤ 2 ^ 63 then some (-(n : Int)) else none
      else
        if n ≤ 2 ^ 63 - 1 then some (n : Int) else none
    else none

/-- Structural decoding errors.  `eof` models a propagated `io.EOF` (the
end-of-stream sentinel); `dictKey e` models the `fmt.Errorf` wrapping of a
key-decoding error in `decodeDict`; `outOfFuel` is an artifact of the
fuelled definition and is never produced with the fuel used by `decode`
on the inputs of the theorems below. -/
inductive DecodeErr where
  | eof            -- propagated io.EOF
  | invalidType    -- "invalid or unsupported type character"
  | stringNoColon  -- "invalid string format, unexpected EOF"
  | badLength      -- "invalid string length" (ParseInt failed)
  | truncated      -- "failed to read string contents" (ReadFull failed)
  | intNoStart     -- "expected i at start of integer"
  | listNoStart    -- "expected l at start of list"
  | dictNoStart    -- "expected d at start of dictionary"
  | intNoEnd       -- "invalid integer format, could not find e"
  | badInt         -- "invalid integer value" (ParseInt failed)
  | dictKey : DecodeErr → DecodeErr  -- "dictionary key must be a string: %w"
  | outOfFuel
deriving Repr, DecidableEq

/-- Outcome of a structural decoding step: a parsed result together with
the remaining stream, a returned error, or a Go runtime panic. -/
inductive Outcome (α : Type) where
  | ok : α → Bytes → Outcome α
  | err : DecodeErr → Outcome α
  | panic : Outcome α

/-- Model of `bufio.Reader.ReadString(delim)` with the trailing delimiter
already stripped (the Go callers always strip it immediately): returns the
bytes before the first `delim` and the bytes after it, or `none` if the
stream ends before `delim` (Go returns the partial data with `io.EOF`,
which every caller turns into an error). -/
def readUntil (delim : Nat) : Bytes → Option (Bytes × Bytes)
  | [] => none
  | b :: rest =>
    if b = delim then some ([], rest)
    else (readUntil delim rest).map (fun p => (b :: p.1, p.2))

/-- Model of `io.ReadFull` into a buffer of length `n`: the first `n`
bytes and the remainder, or `none` when fewer than `n` bytes remain. -/
def takeExact (n : Nat) (s : Bytes) : Option (Bytes × Bytes) :=
  if s.length < n then none else some (s.take n, s.drop n)

/-- Model of `reader.decodeString`: read the decimal length up to `:`,
parse it with `ParseInt`, then read exactly that many bytes.  A negative
parsed length reaches `make([]byte, length)`, which panics at runtime
("makeslice: len out of range"); lengths near 2^63 would exhaust memory in
Go, a resource bound the model (like the spec, section 7) does not
impose. -/
def decodeString (s : Bytes) : Outcome Bytes :=
  match readUntil 58 s with
  | none => .err .stringNoColon
  | some (lenStr, rest) =>
    match goParseInt64 lenStr with
    | none => .err .badLength
    | some len =>
      if len < 0 then .panic
      else
        match takeExact len.toNat rest with
        | none => .err .truncated
        | some (contents, rest2) => .ok contents rest2

/-- Model of `reader.decodeInt`: expect `i`, read the body up to `e`,
parse it with `ParseInt`. -/
def decodeInt (s : Bytes) : Outcome Int :=
  match s with
  | [] => .err .intNoStart
  | b :: rest =>
    if b = 105 then
      match readUntil 101 rest with
      | none => .err .intNoEnd
      | some (body, rest2) =>
        match goParseInt64 body with
        | none => .err .badInt
        | some v => .ok v rest2
    else .err .intNoStart

mutual

/-- Model of `reader.decode`: peek the lead byte and dispatch.  `fuel`
bounds the recursion depth for Lean's termination checker only; `decode`
below supplies more fuel than any input can consume. -/
def decodeF : Nat → Bytes → Outcome Value
  | 0, _ => .err .outOfFuel
  | fuel + 1, s =>
    match s with
    | [] => .err .eof
    | b :: _ =>
      if isDigitByte b then
        match decodeString s with
        | .ok contents rest => .ok (.str contents) rest
        | .err e => .err e
        | .panic => .panic
      else if b = 105 then
        match decodeInt s with
        | .ok v rest => .ok (.int v) rest
        | .err e => .err e
        | .panic => .panic
      else if b = 108 then decodeListF fuel s
      else if b = 100 then decodeDictF fuel s
      else .err .invalidType

/-- Model of `reader.decodeList`: expect `l`, then parse items. -/
def decodeListF : Nat → Bytes → Outcome Value
  | 0, _ => .err .outOfFuel
  | fuel + 1, s =>
    match s with
    | [] => .err .listNoStart
    | b :: rest =>
      if b = 108 then
        match decodeItemsF fuel rest with
        | .ok items rest2 => .ok (.list items) rest2
        | .err e => .err e
        | .panic => .panic
      else .err .listNoStart

/-- The item loop of `decodeList`: peek; `e` terminates, end of stream
propagates `io.EOF`, otherwise decode one value and continue. -/
def decodeItemsF : Nat → Bytes → Outcome (List Value)
  | 0, _ => .err .outOfFuel
  | fuel + 1, s =>
    match s with
    | [] => .err .eof
    | b :: rest =>
      if b = 101 then .ok [] rest
      else
        match decodeF fuel s with
        | .err e => .err e
        | .panic => .panic
        | .ok v r1 =>
          match decodeItemsF fuel r1 with
          | .ok vs r2 => .ok (v :: vs) r2
          | .err e => .err e
          | .panic => .panic

/-- Model of `reader.decodeDict`: expect `d`, then parse entries. -/
def decodeDictF : Nat → Bytes → Outcome Value
  | 0, _ => .err .outOfFuel
  | fuel + 1, s =>
    match s with
    | [] => .err .dictNoStart
    | b :: rest =>
      if b = 100 then
        match decodeEntriesF fuel [] rest with
        | .ok entries rest2 => .ok (.dict entries) rest2
        | .err e => .err e
        | .panic => .panic
      else .err .dictNoStart

/-- The entry loop of `decodeDict`: peek; `e` terminates, end of stream
propagates `io.EOF`, otherwise decode a string key (wrapping its errors,
as `fmt.Errorf` does; a panic propagates unwrapped), decode a value, and
insert with last-write-wins map semantics. -/
def decodeEntriesF : Nat → List (Bytes × Value) → Bytes → Outcome (List (Bytes × Value))
  | 0, _, _ => .err .outOfFuel
  | fuel + 1, acc, s =>
    match s with
    | [] => .err .eof
    | b :: rest =>
      if b = 101 then .ok acc rest
      else
        match decodeString s with
        | .err e => .err (.dictKey e)
        | .panic => .panic
        | .ok key r1 =>
          match decodeF fuel r1 with
          | .err e => .err e
          | .panic => .panic
          | .ok v r2 => decodeEntriesF fuel (insertA acc key v) r2

end

/-- One `reader.decode` call.  The fuel `3 * s.length + 3` exceeds the
recursion depth reachable on a stream of `s.length` bytes (every
container level consumes at least one byte). -/
def decode (s : Bytes) : Outcome Value := decodeF (3 * s.length + 3) s

/-! ## The coercion engine (`unmarshal`)

The destination of `unmarshal` is a Go value reached through reflection.
`Shape` describes a destination type (`reflect.Type`), `DValue` a
destination value (`reflect.Value`) together with the type information
the code reads from it.  Signed and unsigned integer kinds carry their
bit width (8, 16, 32 or 64; Go `int`/`uint` are the 64-bit kinds on the
target platform).  Nil-able destinations (slices, maps, pointers,
interfaces) use `Option`, since the code inspects nil-ness of maps,
pointers and interfaces. -/

/-- A destination type: the `reflect.Type` information `unmarshal`
consults.  A struct field is `(name, tag, exported, shape)` where `tag`
is the value of the `bencode` struct tag (`[]` when absent, as in Go,
where an absent tag reads as `""`).  `mapS keyString valSh` is a map
type; `keyString` records whether its key type is `string`.  `other`
stands for every kind the `switch` in `unmarshal` does not handle
(bool, float, complex, array, chan, func, ...). -/
inductive Shape where
  | str : Shape
  | sint : Nat → Shape
  | uint : Nat → Shape
  | slice : Shape → Shape
  | strct : List (Bytes × Bytes × Bool × Shape) → Shape
  | mapS : Bool → Shape → Shape
  | iface : Shape
  | ptr : Shape → Shape
  | other : Shape

/-- A concrete value stored in a non-nil `any` (interface) slot, as far
as the assignability check in the `reflect.Interface` case can observe
it: either the natural representation of a decoded generic value
(`string`, `int64`, `[]any`, `map[string]any`) or some other concrete
type, to which no decoded value is assignable. -/
inductive IfaceVal where
  | fromValue : Value → IfaceVal
  | otherConcrete : IfaceVal

/-- A destination value (`reflect.Value`).  `sliceV`/`mapV`/`ptrV`
/`ifaceV` hold `none` when the Go value is nil. -/
inductive DValue where
  | strV : Bytes → DValue
  | sintV : Nat → Int → DValue
  | uintV : Nat → Nat → DValue
  | sliceV : Shape → Option (List DValue) → DValue
  | structV : List (Bytes × Bytes × Bool × DValue) → DValue
  | mapV : Bool → Shape → Option (List (Bytes × DValue)) → DValue
  | ifaceV : Option IfaceVal → DValue
  | ptrV : Shape → Option DValue → DValue
  | otherV : Nat → DValue

mutual

/-- The zero value of a shape (`reflect.New(t).Elem()`). -/
def zeroVal : Shape → DValue
  | .str => .strV []
  | .sint w => .sintV w 0
  | .uint w => .uintV w 0
  | .slice el => .sliceV el none
  | .strct fs => .structV (zeroFields fs)
  | .mapS k v => .mapV k v none
  | .iface => .ifaceV none
  | .ptr el => .ptrV el none
  | .other => .otherV 0

/-- Zero values of a struct's fields. -/
def zeroFields : List (Bytes × Bytes × Bool × Shape) → List (Bytes × Bytes × Bool × DValue)
  | [] => []
  | (n, t, ex, sh) :: rest => (n, t, ex, zeroVal sh) :: zeroFields rest

end

/-- Coercion errors.  `panicBadMapKey` models the runtime panic raised by
`reflect.Value.SetMapIndex` when the string key is not assignable to the
map's key type; the others are the errors `unmarshal` returns. -/
inductive UErr where
  | typeMismatch    -- "cannot unmarshal %T into Go value of type ..."
  | overflow        -- "value %d overflows Go value of type %s"
  | negToUnsigned   -- "cannot unmarshal negative value %d into unsigned Go type %s"
  | unsupported     -- "unsupported type for unmarshaling: %s"
  | panicBadMapKey
deriving Repr, DecidableEq

/-- Model of `reflect.Value.OverflowInt` for a `w`-bit signed kind: the
reflect implementation sign-extending-truncates `x` to `w` bits
(`(x << (64-w)) >> (64-w)`, which is the balanced remainder modulo
`2 ^ w`) and reports overflow when the result differs from `x`. -/
def goOverflowInt (w : Nat) (x : Int) : Bool := x ≠ Int.bmod x (2 ^ w)

/-- Model of `reflect.Value.OverflowUint` for a `w`-bit unsigned kind:
zero-extending truncation to `w` bits, overflow when the result differs
from `x`. -/
def goOverflowUint (w : Nat) (x : Nat) : Bool := x ≠ x % 2 ^ w

/-- The dictionary key a struct field is bound to: the `bencode` tag, or
the field's own name when the tag is empty. -/
def resolveKey (name tag : Bytes) : Bytes := if tag = [] then name else tag

/-- Dynamic types of the Go `any` universe the decoder produces are
assignable iff they are identical: `string`, `int64`, `[]any`,
`map[string]any`. -/
def sameKind : Value → Value → Bool
  | .str _, .str _ => true
  | .int _, .int _ => true
  | .list _, .list _ => true
  | .dict _, .dict _ => true
  | _, _ => false

/-- Any list has positive `sizeOf` (used for termination bounds). -/
theorem sizeOf_list_pos {α : Type} [SizeOf α] (l : List α) : 0 < sizeOf l := by
  cases l <;> simp_arith

/-- Bound used for the termination of `unmarshal`: a value found in a
dictionary is smaller than the dictionary's entry list. -/
theorem sizeOf_lookupA {d : List (Bytes × Value)} {k : Bytes} {rv : Value}
    (h : lookupA d k = some rv) : sizeOf rv + 1 < sizeOf d := by
  induction d with
  | nil => simp [lookupA] at h
  | cons p rest ih =>
    obtain ⟨k', v'⟩ := p
    simp only [lookupA] at h
    by_cases hk : k' = k
    · simp [hk] at h
      subst h
      simp
      omega
    · simp [hk] at h
      have := ih h
      simp
      omega

mutual

/-- Model of `unmarshal(rawData, v)` from the coercion engine, returning
the destination value after the call together with the error returned,
if any.  The in-place mutations the Go code performs before an error are
reflected in the returned destination (no rollback).  A `none` raw value
models a nil `any`.  The pointer indirection at the top of the Go
function strips exactly one pointer level and allocates a fresh pointee
when the pointer is nil; this happens before the nil-raw-data check, as
in the source. -/
def unmarshal (raw : Option Value) (v : DValue) : DValue × Option UErr :=
  match v with
  | .ptrV el cur =>
    let inner := cur.getD (zeroVal el)
    match raw with
    | none => (.ptrV el (some inner), none)
    | some rv =>
      let r := unmarshalVal rv inner
      (.ptrV el (some r.1), r.2)
  | _ =>
    match raw with
    | none => (v, none)
    | some rv => unmarshalVal rv v
termination_by (sizeOf raw, 0)
decreasing_by
  all_goals exact Prod.Lex.left _ _ (by simp <;> omega)

/-- The `switch v.Kind()` body of `unmarshal`, after pointer stripping
and the nil check. -/
def unmarshalVal (rv : Value) (v : DValue) : DValue × Option UErr :=
  match v with
  | .strV _ =>
    match rv with
    | .str s => (.strV s, none)
    | _ => (v, some .typeMismatch)
  | .sintV w cur =>
    match rv with
    | .int i =>
      if goOverflowInt w i then (.sintV w cur, some .overflow)
      else (.sintV w i, none)
    | _ => (v, some .typeMismatch)
  | .uintV w cur =>
    match rv with
    | .int i =>
      if i < 0 then (.uintV w cur, some .negToUnsigned)
      else if goOverflowUint w i.toNat then (.uintV w cur, some .overflow)
      else (.uintV w i.toNat, none)
    | _ => (v, some .typeMismatch)
  | .sliceV el old =>
    match rv with
    | .list items =>
      -- reflect.MakeSlice plus element-wise unmarshal; `v.Set(slice)`
      -- runs only when every element succeeded, so on error the old
      -- slice value is kept.
      match unmarshalSlice el items with
      | (ds, none) => (.sliceV el (some ds), none)
      | (_, some e) => (.sliceV el old, some e)
    | _ => (v, some .typeMismatch)
  | .structV fs =>
    match rv with
    | .dict d =>
      let r := unmarshalFields d fs
      (.structV r.1, r.2)
    | _ => (v, some .typeMismatch)
  | .mapV keyStr valSh entries =>
    match rv with
    | .dict d =>
      -- `if v.IsNil() { v.Set(reflect.MakeMap(...)) }`: existing entries
      -- of a non-nil destination map are kept.
      let cur := entries.getD []
      let r := unmarshalMap valSh keyStr cur d
      (.mapV keyStr valSh (some r.1), r.2)
    | _ => (v, some .typeMismatch)
  | .ifaceV cur =>
    match cur with
    | none => (.ifaceV (some (.fromValue rv)), none)
    | some (.fromValue w) =>
      if sameKind w rv then (.ifaceV (some (.fromValue rv)), none)
      else (v, some .typeMismatch)
    | some .otherConcrete => (v, some .typeMismatch)
  | .ptrV _ _ => (v, some .unsupported)
  | .otherV _ => (v, some .unsupported)
termination_by (sizeOf rv, 3)
decreasing_by
  all_goals exact Prod.Lex.left _ _ (by simp <;> omega)

/-- The element loop of the `reflect.Slice` case: each slot of the fresh
slice starts as the element type's zero value; the first element error
aborts. -/
def unmarshalSlice (el : Shape) (items : List Value) : List DValue × Option UErr :=
  match items with
  | [] => ([], none)
  | it :: rest =>
    match unmarshal (some it) (zeroVal el) with
    | (d, none) =>
      match unmarshalSlice el rest with
      | (ds, e) => (d :: ds, e)
    | (d, some e) => ([d], some e)
termination_by (sizeOf items, 2)
decreasing_by
  all_goals exact Prod.Lex.left _ _ (by
    have := sizeOf_list_pos rest
    simp <;> omega)

/-- The field loop of the `reflect.Struct` case: skip unexported fields,
resolve the key, coerce when the dictionary has the key; the first field
error aborts, leaving earlier fields (and the failing field's partial
state) written. -/
def unmarshalFields (d : List (Bytes × Value)) :
    List (Bytes × Bytes × Bool × DValue) →
    List (Bytes × Bytes × Bool × DValue) × Option UErr
  | [] => ([], none)
  | (n, t, ex, fv) :: rest =>
    if ex then
      match hL : lookupA d (resolveKey n t) with
      | some rv =>
        match unmarshal (some rv) fv with
        | (fv2, none) =>
          match unmarshalFields d rest with
          | (rest2, e) => ((n, t, ex, fv2) :: rest2, e)
        | (fv2, some e) => ((n, t, ex, fv2) :: rest, some e)
      | none =>
        match unmarshalFields d rest with
        | (rest2, e) => ((n, t, ex, fv) :: rest2, e)
    else
      match unmarshalFields d rest with
      | (rest2, e) => ((n, t, ex, fv) :: rest2, e)
termination_by fs => (sizeOf d, sizeOf fs)
decreasing_by
  all_goals first
  | exact Prod.Lex.right _ (by simp <;> omega)
  | exact Prod.Lex.left _ _ (by
      have := sizeOf_lookupA hL
      simp <;> omega)

/-- The entry loop of the `reflect.Map` case: a fresh zero value of the
declared value shape per entry, then `SetMapIndex`, which panics when the
map's key type is not `string`; the first error aborts, keeping the
entries inserted so far. -/
def unmarshalMap (valSh : Shape) (keyStr : Bool) (cur : List (Bytes × DValue)) :
    List (Bytes × Value) → List (Bytes × DValue) × Option UErr
  | [] => (cur, none)
  | (k, rvv) :: rest =>
    match unmarshal (some rvv) (zeroVal valSh) with
    | (mv, none) =>
      if keyStr then unmarshalMap valSh keyStr (insertA cur k mv) rest
      else (cur, some .panicBadMapKey)
    | (_, some e) => (cur, some e)
termination_by entries => (sizeOf entries, 2)
decreasing_by
  all_goals exact Prod.Lex.left _ _ (by simp <;> omega)

end

/-! ## The driver: `Decoder.Decode` / `Unmarshal` -/

/-- An error surfaced by `Decoder.Decode`: a structural decoding error, a
coercion error, or the `InvalidUnmarshalError` for a bad destination. -/
inductive GoErr where
  | structural : DecodeErr → GoErr
  | coercion : UErr → GoErr
  | invalidDest
deriving Repr, DecidableEq

/-- Result of one `Decoder.Decode` call.  `ok` carries the written
destination and the stream cursor after the consumed value.  `fail`
carries the destination as the call leaves it and, when the model tracks
it, the stream cursor: `some` for `invalidDest` (nothing was read) and
for coercion errors (the cursor sits just past the decoded value);
`none` after a structural error, where the spec leaves the position
unspecified.  `panicked` is a Go runtime panic. -/
inductive DecOut where
  | ok : DValue → Bytes → DecOut
  | fail : GoErr → DValue → Option Bytes → DecOut
  | panicked : DecOut

/-- The destination check of `Decoder.Decode`:
`rv.Kind() == reflect.Pointer && !rv.IsNil()`. -/
def validDest : DValue → Bool
  | .ptrV _ (some _) => true
  | _ => false

/-- Model of `Decoder.Decode(v)` on a stream holding `s`: validate the
destination before reading anything, structurally decode one value, then
coerce it into the destination.  A coercion panic
(`UErr.panicBadMapKey`) propagates as a panic. -/
def goDecode (dest : DValue) (s : Bytes) : DecOut :=
  if validDest dest then
    match decode s with
    | .err e => .fail (.structural e) dest none
    | .panic => .panicked
    | .ok rv rest =>
      match unmarshal (some rv) dest with
      | (d2, none) => .ok d2 rest
      | (d2, some e) =>
        if e = .panicBadMapKey then .panicked else .fail (.coercion e) d2 (some rest)
  else .fail .invalidDest dest (some s)

/-- Model of `Unmarshal(data, v)`:
`NewDecoder(bytes.NewReader(data)).Decode(v)`. -/
def goUnmarshal (data : Bytes) (dest : DValue) : DecOut := goDecode dest data

/-! ## Spec-side definitions

These follow the specification's words (not the source) and are used to
state refinement-style claims against the model above. -/

/-- The ASCII decimal numeral of a natural number (most significant digit
first), via Mathlib's `Nat.digits`. -/
def natDecimal (n : Nat) : Bytes :=
  if n = 0 then [48] else ((Nat.digits 10 n).reverse.map (· + 48))

/-- Spec reading of a non-empty run of decimal digits. -/
def specDigits (ds : Bytes) : Option Nat :=
  if ds ≠ [] ∧ ds.all isDigitByte then some (digitsToNat ds) else none

/-- Spec reading of an integer body (C4, as amended): an optional single
leading `-` or `+`, then one or more decimal digits, denoting a value in
the 64-bit signed range `[-2^63, 2^63 - 1]`; `none` otherwise. -/
def specIntBody (body : Bytes) : Option Int :=
  match body with
  | [] => none
  | b :: ds =>
    if b = 45 then
      (specDigits ds).bind fun n =>
        if (n : Int) ≤ 2 ^ 63 then some (-(n : Int)) else none
    else if b = 43 then
      (specDigits ds).bind fun n =>
        if (n : Int) < 2 ^ 63 then some (n : Int) else none
    else
      (specDigits body).bind fun n =>
        if (n : Int) < 2 ^ 63 then some (n : Int) else none

/-- Spec reading of one struct field after coercing a dictionary `d` into
the struct (C6): unexported fields and fields whose resolved key is
absent keep their value; a field whose key is present holds the result
of recursively coercing the entry. -/
def coerceField (d : List (Bytes × Value)) (f : Bytes × Bytes × Bool × DValue) :
    Bytes × Bytes × Bool × DValue :=
  match f with
  | (n, t, ex, fv) =>
    if ex then
      match lookupA d (resolveKey n t) with
      | some rv => (n, t, ex, (unmarshal (some rv) fv).1)
      | none => f
    else f

/-! ## Basic lemmas about the stream and association-list primitives -/

theorem lookupA_insertA {α : Type} (m : List (Bytes × α)) (k : Bytes) (v : α)
    (k' : Bytes) :
    lookupA (insertA m k v) k' = if k = k' then some v else lookupA m k' := by
  induction m with
  | nil => simp [insertA, lookupA]
  | cons p rest ih =>
    obtain ⟨k0, v0⟩ := p
    by_cases h0 : k0 = k <;> by_cases h2 : k = k'
    · subst h0; subst h2; simp [insertA, lookupA]
    · subst h0; simp [insertA, lookupA, h2]
    · subst h2
      simp [insertA, lookupA, h0, ih]
    · simp [insertA, lookupA, h0, h2, ih]

theorem readUntil_suffix {delim : Nat} :
    ∀ {s pre rest : Bytes}, readUntil delim s = some (pre, rest) → rest <:+ s := by
  intro s
  induction s with
  | nil => intro pre rest h; simp [readUntil] at h
  | cons b tl ih =>
    intro pre rest h
    simp only [readUntil] at h
    by_cases hb : b = delim
    · rw [if_pos hb] at h
      simp only [Option.some.injEq, Prod.mk.injEq] at h
      have h2 := h.2
      subst h2
      exact List.suffix_cons b tl
    · rw [if_neg hb] at h
      cases hr : readUntil delim tl with
      | none => rw [hr] at h; simp at h
      | some p =>
        obtain ⟨p1, p2⟩ := p
        rw [hr] at h
        simp only [Option.map_some', Option.some.injEq, Prod.mk.injEq] at h
        have h2 := h.2
        subst h2
        exact (ih hr).trans (List.suffix_cons b tl)

theorem readUntil_append {delim : Nat} :
    ∀ {pre : Bytes}, (∀ b ∈ pre, b ≠ delim) → ∀ rest : Bytes,
      readUntil delim (pre ++ delim :: rest) = some (pre, rest) := by
  intro pre
  induction pre with
  | nil => intro _ rest; simp [readUntil]
  | cons b tl ih =>
    intro h rest
    have hb : b ≠ delim := h b (by simp)
    have ih2 := ih (fun x hx => h x (List.mem_cons_of_mem b hx)) rest
    simp only [List.cons_append, readUntil, if_neg hb, List.append_eq] at ih2 ⊢
    rw [ih2]
    simp

theorem takeExact_suffix {n : Nat} {s c rest : Bytes}
    (h : takeExact n s = some (c, rest)) : rest <:+ s := by
  simp only [takeExact] at h
  by_cases hl : s.length < n
  · simp [hl] at h
  · simp [hl] at h
    exact h.2 ▸ List.drop_suffix n s

theorem takeExact_append (S rest : Bytes) :
    takeExact S.length (S ++ rest) = some (S, rest) := by
  simp [takeExact, List.take_left, List.drop_left]

theorem readUntil_none {delim : Nat} :
    ∀ {s : Bytes}, (∀ b ∈ s, b ≠ delim) → readUntil delim s = none := by
  intro s
  induction s with
  | nil => intro _; simp [readUntil]
  | cons b tl ih =>
    intro h
    have hb : b ≠ delim := h b (by simp)
    simp [readUntil, hb, ih (fun x hx => h x (List.mem_cons_of_mem b hx))]

/-! ## The decimal numeral and `ParseInt` -/

theorem digitsToNat_map_add48 (L : List Nat) :
    digitsToNat (L.map (· + 48)) = L.foldl (fun x d => x * 10 + d) 0 := by
  suffices h : ∀ a : Nat,
      (L.map (· + 48)).foldl (fun x b => x * 10 + (b - 48)) a =
        L.foldl (fun x d => x * 10 + d) a by
    exact h 0
  induction L with
  | nil => intro a; simp
  | cons d tl ih => intro a; simp [ih]

theorem foldr_eq_ofDigits (L : List Nat) :
    L.foldr (fun d a => a * 10 + d) 0 = Nat.ofDigits 10 L := by
  induction L with
  | nil => simp [Nat.ofDigits]
  | cons d tl ih => simp [Nat.ofDigits, ih]; ring

theorem digitsToNat_natDecimal (n : Nat) : digitsToNat (natDecimal n) = n := by
  by_cases h0 : n = 0
  · subst h0; simp [natDecimal, digitsToNat]
  · rw [natDecimal, if_neg h0, digitsToNat_map_add48, List.foldl_reverse]
    have : (Nat.digits 10 n).foldr (fun d a => a * 10 + d) 0 = n := by
      rw [foldr_eq_ofDigits, Nat.ofDigits_digits]
    simpa using this

theorem natDecimal_ne_nil (n : Nat) : natDecimal n ≠ [] := by
  by_cases h0 : n = 0
  · subst h0; simp [natDecimal]
  · simp only [natDecimal, if_neg h0]
    simp [Nat.digits_ne_nil_iff_ne_zero, h0]

theorem natDecimal_all_digits (n : Nat) :
    ∀ b ∈ natDecimal n, isDigitByte b = true := by
  intro b hb
  by_cases h0 : n = 0
  · subst h0; simp [natDecimal] at hb; simp [hb, isDigitByte]
  · simp only [natDecimal, if_neg h0, List.mem_map, List.mem_reverse] at hb
    obtain ⟨d, hd, rfl⟩ := hb
    have : d < 10 := Nat.digits_lt_base (by norm_num) hd
    simp [isDigitByte]
    omega

theorem goParseInt64_natDecimal (n : Nat) :
    goParseInt64 (natDecimal n) =
      if n ≤ 2 ^ 63 - 1 then some (n : Int) else none := by
  obtain ⟨b, ds, hnd⟩ : ∃ b ds, natDecimal n = b :: ds := by
    cases h : natDecimal n with
    | nil => exact absurd h (natDecimal_ne_nil n)
    | cons b ds => exact ⟨b, ds, rfl⟩
  have hdig : isDigitByte b = true := natDecimal_all_digits n b (by rw [hnd]; simp)
  have hb45 : b ≠ 45 := by simp [isDigitByte] at hdig; omega
  have hb43 : b ≠ 43 := by simp [isDigitByte] at hdig; omega
  have hall : (b :: ds).all isDigitByte = true := by
    rw [← hnd]
    simp only [List.all_eq_true]
    exact natDecimal_all_digits n
  have hv : digitsToNat (b :: ds) = n := by rw [← hnd, digitsToNat_natDecimal]
  rw [hnd, goParseInt64]
  simp [hb45, hb43, hall, hv]

/-! ## Behaviour of `decodeString` and `decodeInt` -/

theorem natDecimal_no_colon (n : Nat) : ∀ b ∈ natDecimal n, b ≠ 58 := by
  intro b hb
  have := natDecimal_all_digits n b hb
  simp [isDigitByte] at this
  omega

theorem decodeString_append (N : Nat) (hN : N ≤ 2 ^ 63 - 1) (S rest : Bytes)
    (hS : S.length = N) :
    decodeString (natDecimal N ++ 58 :: (S ++ rest)) = .ok S rest := by
  have ht : ((N : Int)).toNat = S.length := by omega
  have hnn : ¬((N : Int) < 0) := by omega
  rw [decodeString, readUntil_append (natDecimal_no_colon N) (S ++ rest)]
  simp only [goParseInt64_natDecimal, if_pos hN, if_neg hnn, ht, takeExact_append]

theorem decodeString_suffix {s c rest : Bytes}
    (h : decodeString s = .ok c rest) : rest <:+ s := by
  rw [decodeString] at h
  cases hr : readUntil 58 s with
  | none => rw [hr] at h; simp at h
  | some p =>
    obtain ⟨pre, after⟩ := p
    rw [hr] at h
    simp only [] at h
    cases hpi : goParseInt64 pre with
    | none => rw [hpi] at h; simp at h
    | some len =>
      rw [hpi] at h
      simp only [] at h
      by_cases hneg : len < 0
      · rw [if_pos hneg] at h; simp at h
      · rw [if_neg hneg] at h
        cases hte : takeExact len.toNat after with
        | none => rw [hte] at h; simp at h
        | some q =>
          obtain ⟨cc, r2⟩ := q
          rw [hte] at h
          simp only [Outcome.ok.injEq] at h
          exact h.2 ▸ (takeExact_suffix hte).trans (readUntil_suffix hr)

theorem decodeInt_suffix {s : Bytes} {v : Int} {rest : Bytes}
    (h : decodeInt s = .ok v rest) : rest <:+ s := by
  cases s with
  | nil => simp [decodeInt] at h
  | cons b tl =>
    rw [decodeInt] at h
    by_cases hb : b = 105
    · rw [if_pos hb] at h
      cases hr : readUntil 101 tl with
      | none => rw [hr] at h; simp at h
      | some p =>
        obtain ⟨body, r2⟩ := p
        rw [hr] at h
        simp only [] at h
        cases hpi : goParseInt64 body with
        | none => rw [hpi] at h; simp at h
        | some w =>
          rw [hpi] at h
          simp only [Outcome.ok.injEq] at h
          exact h.2 ▸ (readUntil_suffix hr).trans (List.suffix_cons b tl)
    · rw [if_neg hb] at h; simp at h

/-- Dispatch of `reader.decode` on a digit lead byte. -/
theorem decodeF_digit_head {fuel : Nat} (hf : fuel ≠ 0) (b : Nat) (tl : Bytes)
    (hb : isDigitByte b = true) :
    decodeF fuel (b :: tl) =
      match decodeString (b :: tl) with
      | .ok c r => .ok (.str c) r
      | .err e => .err e
      | .panic => .panic := by
  obtain ⟨f, rfl⟩ := Nat.exists_eq_succ_of_ne_zero hf
  simp [decodeF, hb]

/-- Dispatch of `reader.decode` on the integer lead byte `i`. -/
theorem decodeF_int_head {fuel : Nat} (hf : fuel ≠ 0) (tl : Bytes) :
    decodeF fuel (105 :: tl) =
      match decodeInt (105 :: tl) with
      | .ok v r => .ok (.int v) r
      | .err e => .err e
      | .panic => .panic := by
  obtain ⟨f, rfl⟩ := Nat.exists_eq_succ_of_ne_zero hf
  simp [decodeF, isDigitByte]

/-! ## Suffix property: one decode call never consumes beyond its value -/

theorem decodeF_suffix_all : ∀ fuel : Nat,
    (∀ s v r, decodeF fuel s = .ok v r → r <:+ s) ∧
    (∀ s v r, decodeListF fuel s = .ok v r → r <:+ s) ∧
    (∀ s vs r, decodeItemsF fuel s = .ok vs r → r <:+ s) ∧
    (∀ s v r, decodeDictF fuel s = .ok v r → r <:+ s) ∧
    (∀ acc s es r, decodeEntriesF fuel acc s = .ok es r → r <:+ s) := by
  intro fuel
  induction fuel with
  | zero =>
    refine ⟨?_, ?_, ?_, ?_, ?_⟩
    · intro s v r h; simp [decodeF] at h
    · intro s v r h; simp [decodeListF] at h
    · intro s vs r h; simp [decodeItemsF] at h
    · intro s v r h; simp [decodeDictF] at h
    · intro acc s es r h; simp [decodeEntriesF] at h
  | succ f ih =>
    obtain ⟨ihF, ihL, ihI, ihD, ihE⟩ := ih
    refine ⟨?_, ?_, ?_, ?_, ?_⟩
    · intro s v r h
      cases s with
      | nil => simp [decodeF] at h
      | cons b tl =>
        rw [decodeF] at h
        by_cases hdig : isDigitByte b
        · rw [if_pos hdig] at h
          cases hds : decodeString (b :: tl) with
          | ok c r2 =>
            rw [hds] at h
            simp only [Outcome.ok.injEq] at h
            exact h.2 ▸ decodeString_suffix hds
          | err e => rw [hds] at h; simp at h
          | panic => rw [hds] at h; simp at h
        · rw [if_neg hdig] at h
          by_cases hi : b = 105
          · rw [if_pos hi] at h
            cases hdi : decodeInt (b :: tl) with
            | ok w r2 =>
              rw [hdi] at h
              simp only [Outcome.ok.injEq] at h
              exact h.2 ▸ decodeInt_suffix hdi
            | err e => rw [hdi] at h; simp at h
            | panic => rw [hdi] at h; simp at h
          · rw [if_neg hi] at h
            by_cases hl : b = 108
            · rw [if_pos hl] at h
              exact ihL _ _ _ h
            · rw [if_neg hl] at h
              by_cases hd : b = 100
              · rw [if_pos hd] at h
                exact ihD _ _ _ h
              · rw [if_neg hd] at h; simp at h
    · intro s v r h
      cases s with
      | nil => simp [decodeListF] at h
      | cons b tl =>
        rw [decodeListF] at h
        by_cases hl : b = 108
        · rw [if_pos hl] at h
          cases hit : decodeItemsF f tl with
          | ok items r2 =>
            rw [hit] at h
            simp only [Outcome.ok.injEq] at h
            exact h.2 ▸ (ihI _ _ _ hit).trans (List.suffix_cons b tl)
          | err e => rw [hit] at h; simp at h
          | panic => rw [hit] at h; simp at h
        · rw [if_neg hl] at h; simp at h
    · intro s vs r h
      cases s with
      | nil => simp [decodeItemsF] at h
      | cons b tl =>
        rw [decodeItemsF] at h
        by_cases he : b = 101
        · rw [if_pos he] at h
          simp only [Outcome.ok.injEq] at h
          exact h.2 ▸ List.suffix_cons b tl
        · rw [if_neg he] at h
          cases hv1 : decodeF f (b :: tl) with
          | ok v1 r1 =>
            rw [hv1] at h
            simp only [] at h
            cases hvs : decodeItemsF f r1 with
            | ok vs2 r2 =>
              rw [hvs] at h
              simp only [Outcome.ok.injEq] at h
              exact h.2 ▸ (ihI _ _ _ hvs).trans (ihF _ _ _ hv1)
            | err e => rw [hvs] at h; simp at h
            | panic => rw [hvs] at h; simp at h
          | err e => rw [hv1] at h; simp at h
          | panic => rw [hv1] at h; simp at h
    · intro s v r h
      cases s with
      | nil => simp [decodeDictF] at h
      | cons b tl =>
        rw [decodeDictF] at h
        by_cases hd : b = 100
        · rw [if_pos hd] at h
          cases hen : decodeEntriesF f [] tl with
          | ok es r2 =>
            rw [hen] at h
            simp only [Outcome.ok.injEq] at h
            exact h.2 ▸ (ihE _ _ _ _ hen).trans (List.suffix_cons b tl)
          | err e => rw [hen] at h; simp at h
          | panic => rw [hen] at h; simp at h
        · rw [if_neg hd] at h; simp at h
    · intro acc s es r h
      cases s with
      | nil => simp [decodeEntriesF] at h
      | cons b tl =>
        rw [decodeEntriesF] at h
        by_cases he : b = 101
        · rw [if_pos he] at h
          simp only [Outcome.ok.injEq] at h
          exact h.2 ▸ List.suffix_cons b tl
        · rw [if_neg he] at h
          cases hk : decodeString (b :: tl) with
          | ok key r1 =>
            rw [hk] at h
            simp only [] at h
            cases hv1 : decodeF f r1 with
            | ok v1 r2 =>
              rw [hv1] at h
              simp only [] at h
              exact (ihE _ _ _ _ h).trans ((ihF _ _ _ hv1).trans (decodeString_suffix hk))
            | err e => rw [hv1] at h; simp at h
            | panic => rw [hv1] at h; simp at h
          | err e => rw [hk] at h; simp at h
          | panic => rw [hk] at h; simp at h

/-- A successful `reader.decode` call leaves a suffix of the input as the
remaining stream: it consumes one complete value and nothing after it. -/
theorem decode_suffix {s : Bytes} {v : Value} {r : Bytes}
    (h : decode s = .ok v r) : r <:+ s :=
  (decodeF_suffix_all (3 * s.length + 3)).1 s v r h


/-! ## `ParseInt` agrees with the spec reading of an integer body -/

theorem goParseInt64_eq_specIntBody (body : Bytes) : goParseInt64 body = specIntBody body := by
  cases body with
  | nil => rfl
  | cons b ds =>
    rw [goParseInt64, specIntBody]
    by_cases h45 : b = 45
    · subst h45
      by_cases hnil : ds = []
      · simp [hnil, specDigits]
      · by_cases hall : ds.all isDigitByte
        · by_cases hle : digitsToNat ds ≤ 2 ^ 63
          · have hle2 : ((digitsToNat ds : Int)) ≤ 2 ^ 63 := by exact_mod_cast hle
            simp [hnil, hall, hle, hle2, specDigits]
          · have hle2 : ¬((digitsToNat ds : Int)) ≤ 2 ^ 63 := by exact_mod_cast hle
            simp [hnil, hall, hle, hle2, specDigits]
        · simp [hnil, hall, specDigits]
    · by_cases h43 : b = 43
      · subst h43
        by_cases hnil : ds = []
        · simp [hnil, specDigits]
        · by_cases hall : ds.all isDigitByte
          · have hiff : (digitsToNat ds ≤ 2 ^ 63 - 1) ↔ ((digitsToNat ds : Int) < 2 ^ 63) := by
              constructor
              · intro hh
                have : (digitsToNat ds) < 2 ^ 63 := by omega
                exact_mod_cast this
              · intro hh
                have : (digitsToNat ds) < 2 ^ 63 := by exact_mod_cast hh
                omega
            by_cases hle : digitsToNat ds ≤ 2 ^ 63 - 1
            · simp [hnil, hall, hle, hiff.mp hle, h45, specDigits]
              split_ifs <;> first | rfl | omega
            · have hle2 : ¬((digitsToNat ds : Int)) < 2 ^ 63 := fun hh => hle (hiff.mpr hh)
              simp [hnil, hall, hle, hle2, h45, specDigits]
              split_ifs <;> first | rfl | omega
          · simp [hnil, hall, h45, specDigits]
      · have hiff : (digitsToNat (b :: ds) ≤ 2 ^ 63 - 1) ↔
            ((digitsToNat (b :: ds) : Int) < 2 ^ 63) := by
          constructor
          · intro hh
            have : (digitsToNat (b :: ds)) < 2 ^ 63 := by omega
            exact_mod_cast this
          · intro hh
            have : (digitsToNat (b :: ds)) < 2 ^ 63 := by exact_mod_cast hh
            omega
        by_cases hall : (b :: ds).all isDigitByte
        · by_cases hle : digitsToNat (b :: ds) ≤ 2 ^ 63 - 1
          · simp [hall, hle, hiff.mp hle, h45, h43, specDigits]
            split_ifs <;> first | rfl | omega
          · have hle2 : ¬((digitsToNat (b :: ds) : Int)) < 2 ^ 63 := fun hh => hle (hiff.mpr hh)
            simp [hall, hle, hle2, h45, h43, specDigits]
            split_ifs <;> first | rfl | omega
        · simp [hall, h45, h43, specDigits]


/-! ## Head-dispatch of one `decode` call -/

theorem decode_digit_head (b : Nat) (tl : Bytes) (hb : isDigitByte b = true) :
    decode (b :: tl) =
      match decodeString (b :: tl) with
      | .ok c r => .ok (.str c) r
      | .err e => .err e
      | .panic => .panic :=
  decodeF_digit_head (by omega) b tl hb

theorem decode_int_head (tl : Bytes) :
    decode (105 :: tl) =
      match decodeInt (105 :: tl) with
      | .ok v r => .ok (.int v) r
      | .err e => .err e
      | .panic => .panic :=
  decodeF_int_head (by omega) tl

theorem decodeInt_append (body rest : Bytes) (hbody : ∀ x ∈ body, x ≠ 101) :
    decodeInt (105 :: (body ++ 101 :: rest)) =
      match goParseInt64 body with
      | some v => .ok v rest
      | none => .err .badInt := by
  simp only [decodeInt, readUntil_append hbody rest]
  norm_num
  cases goParseInt64 body <;> rfl

theorem decodeInt_no_terminator (s : Bytes) (hs : ∀ x ∈ s, x ≠ 101) :
    decodeInt (105 :: s) = .err .intNoEnd := by
  simp only [decodeInt, readUntil_none hs]
  norm_num

theorem decodeString_badLength {s pre after : Bytes}
    (hr : readUntil 58 s = some (pre, after)) (hpi : goParseInt64 pre = none) :
    decodeString s = .err .badLength := by
  rw [decodeString, hr]
  simp only []
  rw [hpi]

/-! ## Claim theorems for the structural decoder -/

/-- C2 (code bug): on the input `d-1:e` the dictionary-key path reaches
`decodeString` with the length prefix `-1`, which `strconv.ParseInt`
accepts; `make([]byte, -1)` then panics at runtime instead of returning
the MalformedLength-class error the claim describes. -/
theorem c2_negative_length_key_panics : decode (bs "d-1:e") = .panic := by rfl

/-- C4 counterexample: the claim says a leading `+` in an integer body
fails with a MalformedInteger-class error, but `strconv.ParseInt` accepts
an optional leading `+`, so `i+42e` decodes successfully to 42. -/
theorem c4_counterexample_plus_sign : decode (bs "i+42e") = .ok (.int 42) [] := by rfl

/-- C4 (amended): for input `i<body>e` (with `body` free of `e`), decoding
succeeds with the 64-bit signed value of `body` exactly when `body` is an
optional leading `-` or `+` followed by decimal digits denoting a value in
the 64-bit signed range, and otherwise fails with the
MalformedInteger-class error; a missing `e` terminator also fails with a
MalformedInteger-class error. -/
theorem c4_integer_decoding (body rest : Bytes) (hbody : ∀ x ∈ body, x ≠ 101) :
    (decode (105 :: (body ++ 101 :: rest)) =
      match specIntBody body with
      | some v => .ok (.int v) rest
      | none => .err .badInt) ∧
    (∀ s : Bytes, (∀ x ∈ s, x ≠ 101) → decode (105 :: s) = .err .intNoEnd) := by
  constructor
  · rw [decode_int_head, decodeInt_append body rest hbody, goParseInt64_eq_specIntBody]
    cases specIntBody body <;> simp
  · intro s hs
    rw [decode_int_head, decodeInt_no_terminator s hs]

/-- C4 witness: the amended theorem applied at `i42e` and at the
unterminated `i42`. -/
theorem c4_integer_decoding_witness :
    (decode (105 :: (bs "42" ++ 101 :: [])) =
      match specIntBody (bs "42") with
      | some v => .ok (.int v) []
      | none => .err .badInt) ∧
    decode (105 :: bs "42") = .err .intNoEnd :=
  ⟨(c4_integer_decoding (bs "42") [] (by decide)).1,
   (c4_integer_decoding (bs "42") [] (by decide)).2 (bs "42") (by decide)⟩

/-- C7 counterexample: the claim quantifies over all non-negative `N`,
but for `N = 2^63` (a length whose numeral `strconv.ParseInt` rejects as
out of 64-bit range) decoding `<N>:<S>` with `S` of length `N` fails with
the MalformedLength-class error instead of producing `Str(S)`. -/
theorem c7_counterexample :
    (List.replicate (2 ^ 63) 48 : Bytes).length = 2 ^ 63 ∧
    decode (natDecimal (2 ^ 63) ++ 58 :: List.replicate (2 ^ 63) 48) = .err .badLength := by
  refine ⟨List.length_replicate _ _, ?_⟩
  obtain ⟨b, ds, hnd⟩ := List.exists_cons_of_ne_nil (natDecimal_ne_nil (2 ^ 63))
  have hb : isDigitByte b = true := natDecimal_all_digits _ b (by rw [hnd]; simp)
  have hpi : goParseInt64 (natDecimal (2 ^ 63)) = none := by
    rw [goParseInt64_natDecimal]
    norm_num
  have hds : decodeString (natDecimal (2 ^ 63) ++ 58 :: List.replicate (2 ^ 63) 48) =
      .err .badLength :=
    decodeString_badLength (readUntil_append (natDecimal_no_colon _) _) hpi
  rw [hnd, List.cons_append] at hds ⊢
  rw [decode_digit_head b _ hb, hds]

/-- C7 (amended): for all `N < 2^63` and byte sequences `S` of length
`N`, decoding the input formed by the decimal numeral of `N`, then `:`,
then `S` (followed by any further bytes) yields the string `S` exactly,
with the stream cursor immediately after the last byte of `S`. -/
theorem c7_string_roundtrip (N : Nat) (hN : N < 2 ^ 63) (S rest : Bytes)
    (hS : S.length = N) :
    decode (natDecimal N ++ 58 :: (S ++ rest)) = .ok (.str S) rest := by
  obtain ⟨b, ds, hnd⟩ : ∃ b ds, natDecimal N = b :: ds := by
    cases h : natDecimal N with
    | nil => exact absurd h (natDecimal_ne_nil _)
    | cons b ds => exact ⟨b, ds, rfl⟩
  have hb : isDigitByte b = true := natDecimal_all_digits _ b (by rw [hnd]; simp)
  have hds : decodeString (natDecimal N ++ 58 :: (S ++ rest)) = .ok S rest :=
    decodeString_append N (by omega) S rest hS
  rw [hnd, List.cons_append] at hds ⊢
  rw [decode_digit_head b _ hb, hds]

/-- C7 witness: the amended theorem applied at `4:spam`. -/
theorem c7_string_roundtrip_witness :
    decode (natDecimal 4 ++ 58 :: (bs "spam" ++ [])) = .ok (.str (bs "spam")) [] :=
  c7_string_roundtrip 4 (by norm_num) (bs "spam") [] (by decide)

/-- C8: a successful decode call leaves a suffix of the input as the
remaining stream (it consumes exactly one complete encoded value and no
trailing bytes), and sequential decoding of `i1ei2e4:spam` yields 1,
then 2, then `spam`, then the end-of-stream sentinel (`io.EOF`). -/
theorem c8_sequential_decode :
    (∀ s v r, decode s = .ok v r → r <:+ s) ∧
    decode (bs "i1ei2e4:spam") = .ok (.int 1) (bs "i2e4:spam") ∧
    decode (bs "i2e4:spam") = .ok (.int 2) (bs "4:spam") ∧
    decode (bs "4:spam") = .ok (.str (bs "spam")) [] ∧
    decode ([] : Bytes) = .err .eof :=
  ⟨fun _ _ _ h => decode_suffix h, by rfl, by rfl, by rfl, by rfl⟩

/-- C8 witness: the suffix property applied to the first value of the
stream `i1ei2e4:spam`. -/
theorem c8_sequential_decode_witness : (bs "i2e4:spam") <:+ (bs "i1ei2e4:spam") :=
  c8_sequential_decode.1 (bs "i1ei2e4:spam") (.int 1) (bs "i2e4:spam") (by rfl)


/-! ## Unfolding lemmas for the coercion engine -/

theorem unmarshal_structV (d : List (Bytes × Value)) (fs : List (Bytes × Bytes × Bool × DValue)) :
    unmarshal (some (.dict d)) (.structV fs) =
      (.structV (unmarshalFields d fs).1, (unmarshalFields d fs).2) := by
  simp [unmarshal, unmarshalVal]

theorem unmarshal_mapV (valSh : Shape) (keyStr : Bool) (d : List (Bytes × Value))
    (ment : Option (List (Bytes × DValue))) :
    unmarshal (some (.dict d)) (.mapV keyStr valSh ment) =
      (.mapV keyStr valSh (some (unmarshalMap valSh keyStr (ment.getD []) d).1),
       (unmarshalMap valSh keyStr (ment.getD []) d).2) := by
  simp [unmarshal, unmarshalVal]

/-! ## The map-entry loop -/

theorem unmarshalMap_ok_iff (valSh : Shape) (d : List (Bytes × Value)) :
    ∀ cur, (unmarshalMap valSh true cur d).2 = none ↔
      ∀ p ∈ d, (unmarshal (some p.2) (zeroVal valSh)).2 = none := by
  induction d with
  | nil => intro cur; simp [unmarshalMap]
  | cons p rest ih =>
    intro cur
    obtain ⟨k, rvv⟩ := p
    rw [unmarshalMap]
    cases hc : unmarshal (some rvv) (zeroVal valSh) with
    | mk mv e =>
      cases e with
      | none =>
        simp only [if_true]
        constructor
        · intro h q hq
          rcases List.mem_cons.mp hq with rfl | hq2
          · simp [hc]
          · exact ((ih _).mp h) q hq2
        · intro h
          exact (ih _).mpr (fun q hq => h q (List.mem_cons_of_mem _ hq))
      | some err =>
        simp only []
        constructor
        · intro h; simp at h
        · intro h
          have := h (k, rvv) (by simp)
          simp [hc] at this

theorem lookupA_mem_of_some {α : Type} {m : List (Bytes × α)} {k : Bytes} {v : α}
    (h : lookupA m k = some v) : k ∈ m.map Prod.fst := by
  induction m with
  | nil => simp [lookupA] at h
  | cons p rest ih =>
    obtain ⟨k0, v0⟩ := p
    simp only [lookupA] at h
    by_cases hk : k0 = k
    · subst hk; simp
    · rw [if_neg hk] at h
      simp only [List.map_cons, List.mem_cons]
      exact Or.inr (ih h)

theorem unmarshalMap_lookup (valSh : Shape) (d : List (Bytes × Value)) :
    ∀ cur, (d.map Prod.fst).Nodup →
      (unmarshalMap valSh true cur d).2 = none →
      ∀ k, lookupA (unmarshalMap valSh true cur d).1 k =
        match lookupA d k with
        | some rv => some ((unmarshal (some rv) (zeroVal valSh)).1)
        | none => lookupA cur k := by
  induction d with
  | nil => intro cur _ _ k; simp [unmarshalMap, lookupA]
  | cons p rest ih =>
    intro cur hnd hok k
    obtain ⟨k0, rvv⟩ := p
    rw [unmarshalMap] at hok ⊢
    cases hc : unmarshal (some rvv) (zeroVal valSh) with
    | mk mv e =>
      cases e with
      | some err => rw [hc] at hok; simp at hok
      | none =>
        rw [hc] at hok
        simp only [if_true] at hok ⊢
        have hnd2 : (rest.map Prod.fst).Nodup := by
          simp only [List.map_cons, List.nodup_cons] at hnd
          exact hnd.2
        have hk0 : k0 ∉ rest.map Prod.fst := by
          simp only [List.map_cons, List.nodup_cons] at hnd
          exact hnd.1
        rw [ih (insertA cur k0 mv) hnd2 hok k]
        by_cases hkk : k0 = k
        · subst hkk
          have hmem : lookupA rest k0 = none := by
            cases hl : lookupA rest k0 with
            | none => rfl
            | some z => exact absurd (lookupA_mem_of_some hl) hk0
          rw [hmem]
          simp only [lookupA, if_pos rfl, lookupA_insertA, hc]
          simp [hc]
        · simp only [lookupA, if_neg hkk, lookupA_insertA, if_neg hkk]

/-- C1 counterexample: the map case allocates a fresh empty mapping only
when the destination map is nil (`if v.IsNil()`); coercing an empty
`Dict` into a non-nil map holding an entry leaves that entry in place,
so the destination does not end up holding exactly the dictionary's
pairs regardless of its prior contents. -/
theorem c1_counterexample_existing_entries :
    unmarshal (some (.dict [])) (.mapV true (.sint 64) (some [(bs "x", .sintV 64 5)])) =
      (.mapV true (.sint 64) (some [(bs "x", .sintV 64 5)]), none) := by
  simp [unmarshal, unmarshalVal, unmarshalMap]

/-- C1 (amended): coercing a `Dict` into a string-keyed mapping
destination succeeds exactly when every entry coerces into a fresh zero
value of the declared value shape, and then the destination holds, under
each dictionary key, the coerced entry; an empty mapping is allocated
only when the destination map is nil, so entries the destination held
before the call survive under keys the dictionary does not contain (for
a nil or empty starting map the result holds exactly the dictionary's
coerced pairs). -/
theorem c1_map_coercion (valSh : Shape) (d : List (Bytes × Value))
    (ment : Option (List (Bytes × DValue))) (hnd : (d.map Prod.fst).Nodup) :
    ((unmarshal (some (.dict d)) (.mapV true valSh ment)).2 = none ↔
      ∀ p ∈ d, (unmarshal (some p.2) (zeroVal valSh)).2 = none) ∧
    ((unmarshal (some (.dict d)) (.mapV true valSh ment)).2 = none →
      ∃ m2, (unmarshal (some (.dict d)) (.mapV true valSh ment)).1 =
          .mapV true valSh (some m2) ∧
        ∀ k, lookupA m2 k =
          match lookupA d k with
          | some rv => some ((unmarshal (some rv) (zeroVal valSh)).1)
          | none => lookupA (ment.getD []) k) := by
  rw [unmarshal_mapV]
  constructor
  · exact unmarshalMap_ok_iff valSh d (ment.getD [])
  · intro hok
    exact ⟨(unmarshalMap valSh true (ment.getD []) d).1, rfl,
      unmarshalMap_lookup valSh d (ment.getD []) hnd hok⟩

/-- C1 witness: the amended theorem applied to the dictionary
`{"a": 1}` coerced into a nil `map[string]int64`. -/
theorem c1_map_coercion_witness :
    ∃ m2, (unmarshal (some (.dict [(bs "a", .int 1)])) (.mapV true (.sint 64) none)).1 =
        .mapV true (.sint 64) (some m2) ∧
      lookupA m2 (bs "a") = some ((unmarshal (some (.int 1)) (zeroVal (.sint 64))).1) := by
  have h := c1_map_coercion (.sint 64) [(bs "a", .int 1)] none (by simp)
  have hone : (unmarshal (some (.int 1)) (zeroVal (.sint 64))).2 = none := by
    simp [unmarshal, unmarshalVal, zeroVal, goOverflowInt]
  have hsucc := h.1.mpr (by
    intro p hp
    simp only [List.mem_singleton] at hp
    subst hp
    exact hone)
  obtain ⟨m2, hm, hl⟩ := h.2 hsucc
  refine ⟨m2, hm, ?_⟩
  rw [hl (bs "a")]
  simp [lookupA]

/-! ## The struct-field loop -/

theorem unmarshalFields_cons_unexported (d : List (Bytes × Value)) (n t : Bytes)
    (fv : DValue) (rest : List (Bytes × Bytes × Bool × DValue)) :
    unmarshalFields d ((n, t, false, fv) :: rest) =
      ((n, t, false, fv) :: (unmarshalFields d rest).1, (unmarshalFields d rest).2) := by
  rw [unmarshalFields]
  simp only [Bool.false_eq_true, if_false]

theorem unmarshalFields_cons_absent (d : List (Bytes × Value)) (n t : Bytes)
    (fv : DValue) (rest : List (Bytes × Bytes × Bool × DValue))
    (hL : lookupA d (resolveKey n t) = none) :
    unmarshalFields d ((n, t, true, fv) :: rest) =
      ((n, t, true, fv) :: (unmarshalFields d rest).1, (unmarshalFields d rest).2) := by
  rw [unmarshalFields]
  simp only [if_true]
  split
  · rename_i rv2 hsome
    rw [hL] at hsome
    cases hsome
  · cases unmarshalFields d rest
    simp

theorem unmarshalFields_cons_ok (d : List (Bytes × Value)) (n t : Bytes)
    (fv fv2 : DValue) (rest : List (Bytes × Bytes × Bool × DValue)) (rv : Value)
    (hL : lookupA d (resolveKey n t) = some rv)
    (hc : unmarshal (some rv) fv = (fv2, none)) :
    unmarshalFields d ((n, t, true, fv) :: rest) =
      ((n, t, true, fv2) :: (unmarshalFields d rest).1, (unmarshalFields d rest).2) := by
  rw [unmarshalFields]
  simp only [if_true]
  split
  · rename_i rv2 hsome
    rw [hL] at hsome
    cases hsome
    simp only [hc]
  · rename_i hnone
    rw [hL] at hnone
    cases hnone

theorem unmarshalFields_cons_err (d : List (Bytes × Value)) (n t : Bytes)
    (fv fv2 : DValue) (rest : List (Bytes × Bytes × Bool × DValue)) (rv : Value)
    (e : UErr) (hL : lookupA d (resolveKey n t) = some rv)
    (hc : unmarshal (some rv) fv = (fv2, some e)) :
    unmarshalFields d ((n, t, true, fv) :: rest) = ((n, t, true, fv2) :: rest, some e) := by
  rw [unmarshalFields]
  simp only [if_true]
  split
  · rename_i rv2 hsome
    rw [hL] at hsome
    cases hsome
    simp only [hc]
  · rename_i hnone
    rw [hL] at hnone
    cases hnone

theorem unmarshalFields_ok_iff (d : List (Bytes × Value)) :
    ∀ fs : List (Bytes × Bytes × Bool × DValue),
      (unmarshalFields d fs).2 = none ↔
        ∀ f ∈ fs, f.2.2.1 = true →
          ∀ rv, lookupA d (resolveKey f.1 f.2.1) = some rv →
            (unmarshal (some rv) f.2.2.2).2 = none := by
  intro fs
  induction fs with
  | nil => simp [unmarshalFields]
  | cons f rest ih =>
    obtain ⟨n, t, ex, fv⟩ := f
    cases ex with
    | false =>
      rw [unmarshalFields_cons_unexported]
      simp only []
      constructor
      · intro h q hq hex rv hrv
        rcases List.mem_cons.mp hq with rfl | hq2
        · simp at hex
        · exact (ih.mp h) q hq2 hex rv hrv
      · intro h
        exact ih.mpr (fun q hq => h q (List.mem_cons_of_mem _ hq))
    | true =>
      cases hL : lookupA d (resolveKey n t) with
      | none =>
        rw [unmarshalFields_cons_absent d n t fv rest hL]
        simp only []
        constructor
        · intro h q hq hex rv hrv
          rcases List.mem_cons.mp hq with rfl | hq2
          · exact absurd hrv (by simp [hL])
          · exact (ih.mp h) q hq2 hex rv hrv
        · intro h
          exact ih.mpr (fun q hq => h q (List.mem_cons_of_mem _ hq))
      | some rv0 =>
        cases hc : unmarshal (some rv0) fv with
        | mk fv2 e0 =>
          cases e0 with
          | some err =>
            rw [unmarshalFields_cons_err d n t fv fv2 rest rv0 err hL hc]
            simp only []
            constructor
            · intro h
              simp at h
            · intro h
              have := h (n, t, true, fv) (by simp) rfl rv0 hL
              simp [hc] at this
          | none =>
            rw [unmarshalFields_cons_ok d n t fv fv2 rest rv0 hL hc]
            simp only []
            constructor
            · intro h q hq hex rv hrv
              rcases List.mem_cons.mp hq with rfl | hq2
              · simp only at hex hrv ⊢
                rw [hL] at hrv
                cases hrv
                simp [hc]
              · exact (ih.mp h) q hq2 hex rv hrv
            · intro h
              exact ih.mpr (fun q hq => h q (List.mem_cons_of_mem _ hq))

theorem unmarshalFields_ok_result (d : List (Bytes × Value)) :
    ∀ fs : List (Bytes × Bytes × Bool × DValue),
      (unmarshalFields d fs).2 = none →
      (unmarshalFields d fs).1 = fs.map (coerceField d) := by
  intro fs
  induction fs with
  | nil => intro _; simp [unmarshalFields]
  | cons f rest ih =>
    intro h
    obtain ⟨n, t, ex, fv⟩ := f
    cases ex with
    | false =>
      rw [unmarshalFields_cons_unexported] at h ⊢
      simp only [] at h ⊢
      simp only [List.map_cons, coerceField, Bool.false_eq_true, if_false]
      simp [ih h]
    | true =>
      cases hL : lookupA d (resolveKey n t) with
      | none =>
        rw [unmarshalFields_cons_absent d n t fv rest hL] at h ⊢
        simp only [] at h ⊢
        simp only [List.map_cons, coerceField, if_true, hL]
        simp [ih h]
      | some rv0 =>
        cases hc : unmarshal (some rv0) fv with
        | mk fv2 e0 =>
          cases e0 with
          | some err =>
            rw [unmarshalFields_cons_err d n t fv fv2 rest rv0 err hL hc] at h
            simp at h
          | none =>
            rw [unmarshalFields_cons_ok d n t fv fv2 rest rv0 hL hc] at h ⊢
            simp only [] at h ⊢
            simp only [List.map_cons, coerceField, if_true, hL, hc]
            simp [ih h]

theorem unmarshalFields_ignore (d : List (Bytes × Value)) (k : Bytes) (jv : Value) :
    ∀ fs : List (Bytes × Bytes × Bool × DValue),
      (∀ f ∈ fs, resolveKey f.1 f.2.1 ≠ k) →
      unmarshalFields ((k, jv) :: d) fs = unmarshalFields d fs := by
  intro fs
  induction fs with
  | nil => intro _; simp [unmarshalFields]
  | cons f rest ih =>
    intro hk
    obtain ⟨n, t, ex, fv⟩ := f
    have hkey : resolveKey n t ≠ k := hk (n, t, ex, fv) (by simp)
    have hrest := ih (fun q hq => hk q (List.mem_cons_of_mem _ hq))
    rw [unmarshalFields, unmarshalFields]
    have hLeq : lookupA ((k, jv) :: d) (resolveKey n t) = lookupA d (resolveKey n t) := by
      simp only [lookupA]
      rw [if_neg (fun hh => hkey hh.symm)]
    rw [hLeq, hrest]

/-- C6: coercing a `Dict` into a structure destination resolves each
field's key as its `bencode` tag or else the field's own name; it
succeeds exactly when every exported field whose key is present coerces
(absence is not an error, and unexported fields impose nothing); on
success each exported field whose key is present holds the recursively
coerced entry while absent-key fields and unexported fields keep their
(zero) value (`coerceField`); and a dictionary key matching no field is
silently ignored, so the result over a dictionary extended with an
unmatched key is unchanged. -/
theorem c6_struct_coercion (d : List (Bytes × Value))
    (fs : List (Bytes × Bytes × Bool × DValue)) :
    ((unmarshal (some (.dict d)) (.structV fs)).2 = none ↔
      ∀ f ∈ fs, f.2.2.1 = true →
        ∀ rv, lookupA d (resolveKey f.1 f.2.1) = some rv →
          (unmarshal (some rv) f.2.2.2).2 = none) ∧
    ((unmarshal (some (.dict d)) (.structV fs)).2 = none →
      (unmarshal (some (.dict d)) (.structV fs)).1 = .structV (fs.map (coerceField d))) ∧
    (∀ k jv, (∀ f ∈ fs, resolveKey f.1 f.2.1 ≠ k) →
      unmarshal (some (.dict ((k, jv) :: d))) (.structV fs) =
        unmarshal (some (.dict d)) (.structV fs)) := by
  rw [unmarshal_structV]
  refine ⟨unmarshalFields_ok_iff d fs, ?_, ?_⟩
  · intro h
    simp only []
    rw [unmarshalFields_ok_result d fs h]
  · intro k jv hk
    rw [unmarshal_structV, unmarshalFields_ignore d k jv fs hk]

/-- C6 witness: the `d3:foo3:bar5:counti42ee` scenario, coerced into a
structure with fields `Foo string` (tag `foo`) and `Count int` (tag
`count`). -/
theorem c6_struct_coercion_witness :
    (unmarshal (some (.dict [(bs "foo", .str (bs "bar")), (bs "count", .int 42)]))
        (.structV [(bs "Foo", bs "foo", true, .strV []),
                   (bs "Count", bs "count", true, .sintV 64 0)])).1 =
      .structV ([(bs "Foo", bs "foo", true, .strV []),
                 (bs "Count", bs "count", true, .sintV 64 0)].map
        (coerceField [(bs "foo", .str (bs "bar")), (bs "count", .int 42)])) := by
  apply (c6_struct_coercion _ _).2.1
  apply (c6_struct_coercion _ _).1.mpr
  intro f hf hex rv hrv
  rcases List.mem_cons.mp hf with rfl | hf2
  · simp [resolveKey, lookupA, bs] at hrv
    subst hrv
    simp [unmarshal, unmarshalVal]
  · rcases List.mem_cons.mp hf2 with rfl | hf3
    · simp [resolveKey, lookupA, bs] at hrv
      subst hrv
      simp [unmarshal, unmarshalVal, goOverflowInt]
    · simp at hf3

/-- C3 counterexample: a mapping destination whose key type is not
string is dispatched to the `reflect.Map` case, not the default
UnsupportedShape case; with a non-empty dictionary, the first
`SetMapIndex` call panics (modelled `UErr.panicBadMapKey`) after the map
was allocated, instead of returning an UnsupportedShape-class error. -/
theorem c3_counterexample_non_string_key_map :
    unmarshal (some (.dict [(bs "a", .int 1)])) (.mapV false (.sint 64) none) =
      (.mapV false (.sint 64) (some []), some .panicBadMapKey) := by
  simp [unmarshal, unmarshalVal, unmarshalMap, zeroVal, goOverflowInt]

/-- C3 (amended): coercing any generic value into a destination of an
unhandled kind (bool, float, array, ...; modelled `DValue.otherV`)
returns the UnsupportedShape-class error and leaves the destination
unchanged; but a mapping destination with a non-string key type is not
UnsupportedShape: an empty dictionary coerces into it successfully (a
non-empty one panics at key insertion, see the counterexample). -/
theorem c3_unsupported_shape (rv : Value) (p : Nat) (sh : Shape) :
    unmarshal (some rv) (.otherV p) = (.otherV p, some .unsupported) ∧
    unmarshal (some (.dict [])) (.mapV false sh none) =
      (.mapV false sh (some []), none) := by
  constructor
  · simp [unmarshal, unmarshalVal]
  · simp [unmarshal, unmarshalVal, unmarshalMap]

/-- C9: for every input and every destination that is not a non-nil
pointer, `Decode` (and `Unmarshal`, which delegates to it) fails with
InvalidDestination; the check precedes any read, so the stream cursor is
unchanged. -/
theorem c9_invalid_destination (dest : DValue) (s : Bytes)
    (h : validDest dest = false) :
    goDecode dest s = .fail .invalidDest dest (some s) ∧
    goUnmarshal s dest = .fail .invalidDest dest (some s) := by
  constructor
  · rw [goDecode, h]
    simp
  · rw [goUnmarshal, goDecode, h]
    simp

/-- C9 witness: a non-pointer destination and a nil pointer
destination, each against the input `i42e`. -/
theorem c9_invalid_destination_witness :
    goDecode (.strV []) (bs "i42e") = .fail .invalidDest (.strV []) (some (bs "i42e")) ∧
    goDecode (.ptrV .str none) (bs "i42e") =
      .fail .invalidDest (.ptrV .str none) (some (bs "i42e")) :=
  ⟨(c9_invalid_destination (.strV []) (bs "i42e") (by rfl)).1,
   (c9_invalid_destination (.ptrV .str none) (bs "i42e") (by rfl)).1⟩

/-- C5: for every `Int` generic value `i` and a signed integer
destination of declared width `w` (8, 16, 32 or 64 bits), coercion
stores `i` exactly when `i` fits the width's signed range and otherwise
fails with IntegerOverflow leaving the destination unchanged; for an
unsigned destination it fails with NegativeToUnsigned when `i < 0`,
fails with IntegerOverflow when `i ≥ 0` exceeds the unsigned range, and
otherwise stores `i` exactly (range semantics, no truncated store). -/
theorem c5_integer_coercion (w : Nat) (hw : w = 8 ∨ w = 16 ∨ w = 32 ∨ w = 64)
    (i c : Int) (cn : Nat) :
    (unmarshal (some (.int i)) (.sintV w c) =
      if -(2 ^ (w - 1) : Int) ≤ i ∧ i < 2 ^ (w - 1) then (.sintV w i, none)
      else (.sintV w c, some .overflow)) ∧
    (unmarshal (some (.int i)) (.uintV w cn) =
      if i < 0 then (.uintV w cn, some .negToUnsigned)
      else if i < 2 ^ w then (.uintV w i.toNat, none)
      else (.uintV w cn, some .overflow)) := by
  constructor
  · rcases hw with rfl | rfl | rfl | rfl <;>
      (simp only [unmarshal, unmarshalVal, goOverflowInt, Int.bmod_def]
       norm_num
       split_ifs <;> first | rfl | omega | simp_all | (exfalso; omega))
  · rcases hw with rfl | rfl | rfl | rfl <;>
      (simp only [unmarshal, unmarshalVal, goOverflowUint]
       norm_num
       split_ifs <;> first | rfl | omega | simp_all | (exfalso; omega))

/-- C5 witness: `Int(9223372036854775807)` into an 8-bit signed
destination overflows; `Int(-1)` into an unsigned destination is
NegativeToUnsigned. -/
theorem c5_integer_coercion_witness :
    unmarshal (some (.int 9223372036854775807)) (.sintV 8 0) =
      (.sintV 8 0, some .overflow) ∧
    unmarshal (some (.int (-1))) (.uintV 64 0) = (.uintV 64 0, some .negToUnsigned) := by
  constructor
  · have h := (c5_integer_coercion 8 (Or.inl rfl) 9223372036854775807 0 0).1
    rw [h]
    norm_num
  · have h := (c5_integer_coercion 64 (by norm_num) (-1) 0 0).2
    rw [h]
    norm_num

end Bencode
